import Mathlib

/-!
Shallow embedding of `mdq.py`, a local semantic-search CLI over text files.

The program keeps two SQLite tables:
  * `document(path TEXT UNIQUE, digest TEXT, mtime FLOAT)` — one row per path;
  * `embedding(digest TEXT UNIQUE, vec FLOAT[n])` — a vec0 virtual table,
    one row per content digest.

`main` discovers text file paths, classifies outdated ones by comparing the
stored mtime with the filesystem (`get_outdated_paths`), commits the document
rows (`INSERT OR IGNORE` followed by `UPDATE`), filters the outdated metadata
down to digests absent from the embedding table, reads those files, embeds
them in one batch, inserts the (digest, vec) pairs with a plain `INSERT`,
and finally runs a scoped KNN query joining the two tables.

External capabilities (the hash function, the embedding model, the vector
distance) are parameters of the model.  File contents are strings, mtimes are
integers compared only for equality, vectors are integer lists (their values
are never inspected by the core, only passed to the distance capability).
-/

namespace Mdq

/-- Embedding vectors: fixed-length float vectors in the source; the core
never inspects their entries, so we model them as integer lists handed to the
external distance capability. -/
abbrev Vec := List Int

/-- One file known to the (modelled) filesystem: its path, byte content,
modification time, and whether `stat` / `open`+`read` succeed (permission or
I/O errors are modelled by these flags). -/
structure FileEntry where
  path : String
  content : String
  mtime : Int
  statOk : Bool := true
  readOk : Bool := true
deriving DecidableEq, Repr

/-- The filesystem snapshot a run executes against. -/
abbrev FS := List FileEntry

/-- `path.stat().st_mtime`: `none` models an `OSError` (missing file or
failing stat). -/
def fsStat (fs : FS) (p : String) : Option Int :=
  match fs.find? (·.path == p) with
  | some e => if e.statOk then some e.mtime else none
  | none => none

/-- `path.open("rb")` / `path.read_text()`: `none` models a read failure. -/
def fsRead (fs : FS) (p : String) : Option String :=
  match fs.find? (·.path == p) with
  | some e => if e.readOk then some e.content else none
  | none => none

/-- A row of the `document` table: `path TEXT UNIQUE, digest TEXT, mtime`. -/
structure DocRow where
  path : String
  digest : String
  mtime : Int
deriving DecidableEq, Repr

abbrev DocumentTable := List DocRow

/-- A row of the `embedding` vec0 table: `digest TEXT UNIQUE, vec`. -/
structure EmbRow where
  digest : String
  vec : Vec
deriving DecidableEq, Repr

abbrev EmbeddingTable := List EmbRow

/-- The `DocumentMetadata` named tuple of the source. -/
structure DocumentMetadata where
  path : String
  digest : String
  mtime : Int
deriving DecidableEq, Repr

/-- Exceptions a run can raise: per-path `OSError`s, a failing embedding
capability, and a SQLite UNIQUE-constraint violation. -/
inductive RunError where
  | ioError (p : String)
  | embedFailure
  | integrityError
deriving DecidableEq, Repr

/-- `SELECT path, digest, mtime FROM document WHERE path=?`. -/
def lookupDoc (doc : DocumentTable) (p : String) : Option DocRow :=
  doc.find? (·.path == p)

/-- `SELECT digest FROM embedding WHERE digest = ?` (as a row lookup). -/
def lookupEmb (emb : EmbeddingTable) (d : String) : Option EmbRow :=
  emb.find? (·.digest == d)

/-- The body of the loop in `get_outdated_paths` for one path: stat the path,
fetch its document row, skip it (`.ok none`) when the stored mtime equals the
current one, otherwise digest the file (`dg` is the external hash capability
applied to the bytes read) and yield fresh metadata. -/
def classifyPath (doc : DocumentTable) (fs : FS) (dg : String → String)
    (p : String) : Except RunError (Option DocumentMetadata) :=
  match fsStat fs p with
  | none => .error (.ioError p)
  | some newMtime =>
    let current := match lookupDoc doc p with
      | some r => newMtime == r.mtime
      | none => false
    if current then .ok none
    else
      match fsRead fs p with
      | none => .error (.ioError p)
      | some c => .ok (some ⟨p, dg c, newMtime⟩)

/-- `get_outdated_paths(paths, conn)`: metadata for every path that is absent
from the document table or whose mtime changed; any per-path `OSError`
propagates and aborts the whole listing (there is no try/except in the
source). -/
def get_outdated_paths (paths : List String) (doc : DocumentTable) (fs : FS)
    (dg : String → String) : Except RunError (List DocumentMetadata) :=
  match paths with
  | [] => .ok []
  | p :: rest =>
    match classifyPath doc fs dg p with
    | .error e => .error e
    | .ok md? =>
      match get_outdated_paths rest doc fs dg with
      | .error e => .error e
      | .ok ms => .ok (md?.toList ++ ms)

/-- One `INSERT OR IGNORE INTO document(path, digest, mtime)` row. -/
def insertOrIgnoreDoc (tbl : DocumentTable) (m : DocumentMetadata) :
    DocumentTable :=
  match lookupDoc tbl m.path with
  | some _ => tbl
  | none => tbl ++ [⟨m.path, m.digest, m.mtime⟩]

/-- One `UPDATE document SET digest=?, mtime=? WHERE path=?` row. -/
def updateDoc (tbl : DocumentTable) (m : DocumentMetadata) : DocumentTable :=
  tbl.map fun r =>
    if r.path == m.path then ⟨r.path, m.digest, m.mtime⟩ else r

/-- The first `with conn:` block of `main`: `executemany` of the inserts,
then `executemany` of the updates, committed as one transaction. -/
def commitDocuments (doc : DocumentTable) (ms : List DocumentMetadata) :
    DocumentTable :=
  ms.foldl updateDoc (ms.foldl insertOrIgnoreDoc doc)

/-- The filter of `main` building `need_embedding_metadatas`: keep exactly
the metadata whose digest has no row in the embedding table. -/
def needsEmbedding (emb : EmbeddingTable) (ms : List DocumentMetadata) :
    List DocumentMetadata :=
  ms.filter fun m => (lookupEmb emb m.digest).isNone

/-- `metadata.path.read_text()` for each metadata, in order; a read failure
raises and aborts the batch. -/
def readAll (fs : FS) (ms : List DocumentMetadata) :
    Except RunError (List String) :=
  match ms with
  | [] => .ok []
  | m :: rest =>
    match fsRead fs m.path with
    | none => .error (.ioError m.path)
    | some c =>
      match readAll fs rest with
      | .error e => .error e
      | .ok cs => .ok (c :: cs)

/-- One row of `INSERT INTO embedding(digest, vec)`: a plain insert into a
table whose digest column is declared UNIQUE, so inserting a digest that is
already present raises an IntegrityError. -/
def insertEmbRow (tbl : EmbeddingTable) (pair : String × Vec) :
    Except RunError EmbeddingTable :=
  match lookupEmb tbl pair.1 with
  | some _ => .error .integrityError
  | none => .ok (tbl ++ [⟨pair.1, pair.2⟩])

/-- The second `with conn:` block of `main`: `executemany` of the embedding
inserts; any constraint violation aborts and the transaction rolls back
(all-or-nothing). -/
def insertEmbeddings (tbl : EmbeddingTable) (pairs : List (String × Vec)) :
    Except RunError EmbeddingTable :=
  match pairs with
  | [] => .ok tbl
  | pair :: rest =>
    match insertEmbRow tbl pair with
    | .error e => .error e
    | .ok tbl' => insertEmbeddings tbl' rest

/-- Insert a (digest, distance) pair into a distance-sorted list. -/
def insertPair (x : String × Nat) :
    List (String × Nat) → List (String × Nat)
  | [] => [x]
  | y :: ys => if x.2 ≤ y.2 then x :: y :: ys else y :: insertPair x ys

/-- Sort (digest, distance) pairs by ascending distance. -/
def sortPairs : List (String × Nat) → List (String × Nat)
  | [] => []
  | x :: xs => insertPair x (sortPairs xs)

/-- The vec0 KNN scan: `embedding.vec MATCH ? AND k = ? ORDER BY distance`.
It ranks every row of the embedding table by distance to the query vector and
returns at most `k` rows; the `k` limit applies to embedding rows, before
the join with the document table. -/
def knn (emb : EmbeddingTable) (dist : Vec → Vec → Nat) (q : Vec) (k : Nat) :
    List (String × Nat) :=
  (sortPairs (emb.map fun r => (r.digest, dist r.vec q))).take k

/-- The join of the KNN rows with the document table under
`document.path IN (S)`: each returned digest pairs with every document row in
the candidate set carrying that digest. -/
def joinRows (doc : DocumentTable) (s : List String) :
    List (String × Nat) → List (String × Nat)
  | [] => []
  | (d, dst) :: rest =>
    ((doc.filter fun r => r.digest == d && s.contains r.path).map
      fun r => (r.path, dst)) ++ joinRows doc s rest

/-- The full query of `main` with the distance column kept:
`SELECT path FROM document JOIN embedding ON document.digest =
embedding.digest WHERE document.path IN (S) AND vec MATCH ? AND k = ?
ORDER BY distance`. -/
def queryRows (doc : DocumentTable) (emb : EmbeddingTable) (s : List String)
    (q : Vec) (dist : Vec → Vec → Nat) (k : Nat) : List (String × Nat) :=
  joinRows doc s (knn emb dist q k)

/-- The paths printed by `main`, in result order. -/
def scopedQuery (doc : DocumentTable) (emb : EmbeddingTable)
    (s : List String) (q : Vec) (dist : Vec → Vec → Nat) (k : Nat) :
    List String :=
  (queryRows doc emb s q dist k).map (·.1)

/-- Final state and outcome of one invocation of `main`'s indexing and query
phases.  `doc`/`emb` are the tables as left on disk (also when an exception
aborted the run), `docEmbedInputs` the document strings submitted to the
embedding capability, `result` the printed paths or the exception. -/
structure RunOutcome where
  doc : DocumentTable
  emb : EmbeddingTable
  docEmbedInputs : List String
  result : Except RunError (List String)
deriving Repr

/-- One invocation of `main` after option parsing: classify, commit document
rows, filter to missing digests, read, embed (`embedOk = false` models a
failing embedding capability), insert embeddings, query.  Mirrors the
statement order of the source: the document commit happens before any
embedding work. -/
def run (paths : List String) (fs : FS) (doc : DocumentTable)
    (emb : EmbeddingTable) (dg : String → String) (embedFn : String → Vec)
    (embedOk : Bool) (q : Vec) (dist : Vec → Vec → Nat) (k : Nat) :
    RunOutcome :=
  match get_outdated_paths paths doc fs dg with
  | .error e => ⟨doc, emb, [], .error e⟩
  | .ok ms =>
    let doc1 := commitDocuments doc ms
    let needEmb := needsEmbedding emb ms
    match readAll fs needEmb with
    | .error e => ⟨doc1, emb, [], .error e⟩
    | .ok docs =>
      if embedOk then
        match insertEmbeddings emb
            ((needEmb.zip docs).map fun mc => (mc.1.digest, embedFn mc.2)) with
        | .error e => ⟨doc1, emb, docs, .error e⟩
        | .ok emb1 =>
          ⟨doc1, emb1, docs, .ok (scopedQuery doc1 emb1 paths q dist k)⟩
      else ⟨doc1, emb, docs, .error .embedFailure⟩

/-- The module-level `query_prefix = "query: "` of the source. -/
def queryMarker : String := "query: "

/-- `options.query or sys.stdin.readline()`: Python `or` falls through to
stdin when the flag is absent or the empty string. -/
def rawQuery (q : Option String) (stdinLine : String) : String :=
  match q with
  | some s => if s = "" then stdinLine else s
  | none => stdinLine

/-- `get_options` line: `options.query = query_prefix + query_str.strip()` —
the string later handed to the embedding capability for the query. -/
def queryText (q : Option String) (stdinLine : String) : String :=
  queryMarker ++ (rawQuery q stdinLine).trim

/-- `get_text_file_paths(options)`: each argument path is yielded as-is when
it is a file, expanded by the extension globs when it is a directory, and
raises `ValueError(path)` otherwise.  `isFile`/`isDir`/`glob` model the
filesystem capability. -/
def get_text_file_paths (paths : List String) (exts : List String)
    (isFile : String → Bool) (isDir : String → Bool)
    (glob : String → String → List String) : Except String (List String) :=
  match paths with
  | [] => .ok []
  | p :: rest =>
    if isFile p then
      match get_text_file_paths rest exts isFile isDir glob with
      | .error e => .error e
      | .ok l => .ok (p :: l)
    else if isDir p then
      match get_text_file_paths rest exts isFile isDir glob with
      | .error e => .error e
      | .ok l => .ok (exts.flatMap (glob p) ++ l)
    else .error p

/-! ### Concrete fixtures used to evaluate the model -/

/-- A constant embedding capability (its values are irrelevant to the
indexing logic under scrutiny). -/
def constEmbed : String → Vec := fun _ => [1]

/-- A constant distance capability. -/
def constDist : Vec → Vec → Nat := fun _ _ => 0

/-- One readable file. -/
def fsOne : FS := [⟨"a.md", "cats", 5, true, true⟩]

/-- The same file with its mtime bumped but identical content. -/
def fsTouched : FS := [⟨"a.md", "cats", 9, true, true⟩]

/-- Two distinct paths with byte-identical content. -/
def fsTwin : FS :=
  [⟨"a.md", "cats", 1, true, true⟩, ⟨"b.md", "cats", 2, true, true⟩]

/-- One healthy file next to one whose `stat` raises. -/
def fsBadStat : FS :=
  [⟨"good.md", "x", 1, true, true⟩, ⟨"bad.md", "y", 2, false, true⟩]

/-! ### Helper lemmas about table lookups and commits -/

theorem lookupDoc_path (tbl : DocumentTable) (p : String) (r : DocRow)
    (h : lookupDoc tbl p = some r) : r.path = p := by
  have := List.find?_some h
  simpa using this

theorem lookupDoc_append_single (tbl : DocumentTable) (x : DocRow)
    (p : String) :
    lookupDoc (tbl ++ [x]) p =
      match lookupDoc tbl p with
      | some r => some r
      | none => if x.path == p then some x else none := by
  unfold lookupDoc
  rw [List.find?_append]
  cases h : tbl.find? (·.path == p)
  · cases hx : x.path == p <;> simp [List.find?, Option.or, hx]
  · simp [Option.or]

theorem lookupDoc_insertOrIgnoreDoc_found (tbl : DocumentTable)
    (m : DocumentMetadata) (p : String) (r : DocRow)
    (h : lookupDoc tbl p = some r) :
    lookupDoc (insertOrIgnoreDoc tbl m) p = some r := by
  unfold insertOrIgnoreDoc
  cases hm : lookupDoc tbl m.path
  · rw [lookupDoc_append_single, h]
  · exact h

theorem lookupDoc_insertOrIgnoreDoc_other (tbl : DocumentTable)
    (m : DocumentMetadata) (p : String) (hne : m.path ≠ p) :
    lookupDoc (insertOrIgnoreDoc tbl m) p = lookupDoc tbl p := by
  unfold insertOrIgnoreDoc
  cases hm : lookupDoc tbl m.path
  · rw [lookupDoc_append_single]
    cases h : lookupDoc tbl p
    · simp [hne]
    · simp
  · rfl

theorem lookupDoc_insertOrIgnoreDoc_self (tbl : DocumentTable)
    (m : DocumentMetadata) :
    (lookupDoc (insertOrIgnoreDoc tbl m) m.path).isSome := by
  unfold insertOrIgnoreDoc
  cases hm : lookupDoc tbl m.path
  · rw [lookupDoc_append_single, hm]
    simp
  · simp [hm]

theorem lookupDoc_updateDoc (tbl : DocumentTable) (m : DocumentMetadata)
    (p : String) :
    lookupDoc (updateDoc tbl m) p =
      (lookupDoc tbl p).map fun r =>
        if r.path == m.path then ⟨r.path, m.digest, m.mtime⟩ else r := by
  induction tbl with
  | nil => rfl
  | cons r rest ih =>
    have hpath : (if r.path == m.path
        then (⟨r.path, m.digest, m.mtime⟩ : DocRow) else r).path = r.path := by
      split <;> rfl
    unfold lookupDoc updateDoc at *
    simp only [List.map_cons, List.find?]
    rw [hpath]
    cases h : (r.path == p)
    · simpa using ih
    · simp

/-! Lemmas about the two phases of `commitDocuments`. -/

theorem foldl_insert_found (ms : List DocumentMetadata)
    (tbl : DocumentTable) (p : String) (r : DocRow)
    (h : lookupDoc tbl p = some r) :
    lookupDoc (ms.foldl insertOrIgnoreDoc tbl) p = some r := by
  induction ms generalizing tbl with
  | nil => exact h
  | cons m rest ih =>
    exact ih _ (lookupDoc_insertOrIgnoreDoc_found tbl m p r h)

theorem foldl_insert_mem (ms : List DocumentMetadata)
    (tbl : DocumentTable) (m : DocumentMetadata) (hm : m ∈ ms) :
    (lookupDoc (ms.foldl insertOrIgnoreDoc tbl) m.path).isSome := by
  induction ms generalizing tbl with
  | nil => cases hm
  | cons m0 rest ih =>
    rcases List.mem_cons.mp hm with rfl | hm'
    · have h0 := lookupDoc_insertOrIgnoreDoc_self tbl m
      obtain ⟨r, hr⟩ := Option.isSome_iff_exists.mp h0
      simp only [List.foldl_cons]
      rw [foldl_insert_found rest _ _ r hr]
      rfl
    · exact ih _ hm'

theorem foldl_insert_other (ms : List DocumentMetadata)
    (tbl : DocumentTable) (p : String) (h : ∀ m ∈ ms, m.path ≠ p) :
    lookupDoc (ms.foldl insertOrIgnoreDoc tbl) p = lookupDoc tbl p := by
  induction ms generalizing tbl with
  | nil => rfl
  | cons m rest ih =>
    simp only [List.foldl_cons]
    rw [ih _ (fun m' hm' => h m' (List.mem_cons_of_mem m hm')),
      lookupDoc_insertOrIgnoreDoc_other tbl m p (h m (List.mem_cons_self m rest))]

theorem foldl_update_other (ms : List DocumentMetadata)
    (tbl : DocumentTable) (p : String) (h : ∀ m ∈ ms, m.path ≠ p) :
    lookupDoc (ms.foldl updateDoc tbl) p = lookupDoc tbl p := by
  induction ms generalizing tbl with
  | nil => rfl
  | cons m rest ih =>
    simp only [List.foldl_cons]
    rw [ih _ (fun m' hm' => h m' (List.mem_cons_of_mem m hm')),
      lookupDoc_updateDoc]
    cases hq : lookupDoc tbl p
    · rfl
    · rename_i r
      have hrp : r.path = p := lookupDoc_path tbl p r hq
      have hne : (r.path == m.path) = false := by
        rw [hrp]
        exact beq_false_of_ne fun hc => h m (List.mem_cons_self m rest) hc.symm
      dsimp only [Option.map]
      rw [if_neg (by simp [hne])]

theorem foldl_update_target (ms : List DocumentMetadata)
    (tbl : DocumentTable) (p d : String) (t : Int)
    (hpres : (lookupDoc tbl p).isSome)
    (hall : ∀ m ∈ ms, m.path = p → m.digest = d ∧ m.mtime = t)
    (hsrc : (∃ m ∈ ms, m.path = p) ∨ lookupDoc tbl p = some ⟨p, d, t⟩) :
    lookupDoc (ms.foldl updateDoc tbl) p = some ⟨p, d, t⟩ := by
  induction ms generalizing tbl with
  | nil =>
    rcases hsrc with ⟨m, hm, _⟩ | hv
    · cases hm
    · exact hv
  | cons m rest ih =>
    obtain ⟨r, hr⟩ := Option.isSome_iff_exists.mp hpres
    have hrp : r.path = p := lookupDoc_path tbl p r hr
    have hpres1 : (lookupDoc (updateDoc tbl m) p).isSome := by
      rw [lookupDoc_updateDoc, hr]
      rfl
    simp only [List.foldl_cons]
    by_cases hmp : m.path = p
    · obtain ⟨hd, ht⟩ := hall m (List.mem_cons_self m rest) hmp
      have hbeq : (r.path == m.path) = true := by
        rw [hrp, hmp]; exact beq_self_eq_true p
      have hv : lookupDoc (updateDoc tbl m) p = some ⟨p, d, t⟩ := by
        rw [lookupDoc_updateDoc, hr]
        dsimp only [Option.map]
        rw [if_pos hbeq, hrp, hd, ht]
      exact ih _ hpres1
        (fun m' hm' => hall m' (List.mem_cons_of_mem m hm')) (Or.inr hv)
    · have hbeq : (r.path == m.path) = false := by
        rw [hrp]; exact beq_false_of_ne fun hc => hmp hc.symm
      have hv : lookupDoc (updateDoc tbl m) p = lookupDoc tbl p := by
        rw [lookupDoc_updateDoc, hr]
        dsimp only [Option.map]
        rw [if_neg (by simp [hbeq])]
      refine ih _ hpres1
        (fun m' hm' => hall m' (List.mem_cons_of_mem m hm')) ?_
      rcases hsrc with ⟨m', hm', hp'⟩ | hold
      · rcases List.mem_cons.mp hm' with rfl | hm''
        · exact absurd hp' hmp
        · exact Or.inl ⟨m', hm'', hp'⟩
      · exact Or.inr (hv.trans hold)

theorem lookupDoc_commitDocuments_other (doc : DocumentTable)
    (ms : List DocumentMetadata) (p : String)
    (h : ∀ m ∈ ms, m.path ≠ p) :
    lookupDoc (commitDocuments doc ms) p = lookupDoc doc p := by
  unfold commitDocuments
  rw [foldl_update_other ms _ p h, foldl_insert_other ms doc p h]

theorem lookupDoc_commitDocuments_target (doc : DocumentTable)
    (ms : List DocumentMetadata) (p d : String) (t : Int)
    (hmem : ∃ m ∈ ms, m.path = p)
    (hall : ∀ m ∈ ms, m.path = p → m.digest = d ∧ m.mtime = t) :
    lookupDoc (commitDocuments doc ms) p = some ⟨p, d, t⟩ := by
  unfold commitDocuments
  obtain ⟨m, hm, hmp⟩ := hmem
  have hpres : (lookupDoc (ms.foldl insertOrIgnoreDoc doc) p).isSome := by
    rw [← hmp]
    exact foldl_insert_mem ms doc m hm
  exact foldl_update_target ms _ p d t hpres hall (Or.inl ⟨m, hm, hmp⟩)

/-! ### Lemmas about staleness classification -/

theorem classifyPath_some_inv (doc : DocumentTable) (fs : FS)
    (dg : String → String) (p : String) (md : DocumentMetadata)
    (h : classifyPath doc fs dg p = .ok (some md)) :
    md.path = p ∧ fsStat fs p = some md.mtime ∧
      ∃ c, fsRead fs p = some c ∧ md.digest = dg c := by
  unfold classifyPath at h
  cases hs : fsStat fs p <;> rw [hs] at h
  · cases h
  · rename_i t
    dsimp only at h
    split at h
    · cases h
    · cases hr : fsRead fs p <;> rw [hr] at h
      · cases h
      · rename_i c
        simp only [Except.ok.injEq, Option.some.injEq] at h
        subst h
        exact ⟨rfl, rfl, c, rfl, rfl⟩

theorem classifyPath_none_inv (doc : DocumentTable) (fs : FS)
    (dg : String → String) (p : String)
    (h : classifyPath doc fs dg p = .ok none) :
    ∃ r, lookupDoc doc p = some r ∧ fsStat fs p = some r.mtime := by
  unfold classifyPath at h
  cases hs : fsStat fs p <;> rw [hs] at h
  · cases h
  · rename_i t
    dsimp only at h
    split at h
    · rename_i hcur
      cases hl : lookupDoc doc p <;> rw [hl] at hcur
      · cases hcur
      · rename_i r
        exact ⟨r, rfl, by rw [eq_of_beq hcur]⟩
    · cases hr : fsRead fs p <;> rw [hr] at h <;> simp at h

theorem classifyPath_current (doc : DocumentTable) (fs : FS)
    (dg : String → String) (p : String) (r : DocRow)
    (hl : lookupDoc doc p = some r) (hs : fsStat fs p = some r.mtime) :
    classifyPath doc fs dg p = .ok none := by
  unfold classifyPath
  rw [hs]
  dsimp only
  rw [hl]
  simp

theorem get_outdated_mem (paths : List String) (doc : DocumentTable)
    (fs : FS) (dg : String → String) (ms : List DocumentMetadata)
    (h : get_outdated_paths paths doc fs dg = .ok ms) :
    ∀ m ∈ ms, classifyPath doc fs dg m.path = .ok (some m) := by
  induction paths generalizing ms with
  | nil =>
    unfold get_outdated_paths at h
    cases h
    intro m hm
    cases hm
  | cons p rest ih =>
    unfold get_outdated_paths at h
    cases hc : classifyPath doc fs dg p <;> rw [hc] at h
    · cases h
    · rename_i md?
      cases hrec : get_outdated_paths rest doc fs dg <;> rw [hrec] at h
      · cases h
      · rename_i ms'
        cases h
        intro m hm
        rcases List.mem_append.mp hm with hm1 | hm2
        · cases md? with
          | none => cases hm1
          | some md =>
            rcases List.mem_singleton.mp hm1 with rfl
            have hp := (classifyPath_some_inv doc fs dg p m hc).1
            rw [hp]
            exact hc
        · exact ih ms' hrec m hm2

theorem get_outdated_classify_ok (paths : List String) (doc : DocumentTable)
    (fs : FS) (dg : String → String) (ms : List DocumentMetadata)
    (h : get_outdated_paths paths doc fs dg = .ok ms) (p : String)
    (hp : p ∈ paths) : ∃ o, classifyPath doc fs dg p = .ok o := by
  induction paths generalizing ms with
  | nil => cases hp
  | cons p0 rest ih =>
    unfold get_outdated_paths at h
    cases hc : classifyPath doc fs dg p0 <;> rw [hc] at h
    · cases h
    · rename_i md?
      cases hrec : get_outdated_paths rest doc fs dg <;> rw [hrec] at h
      · cases h
      · rcases List.mem_cons.mp hp with rfl | hp'
        · exact ⟨md?, hc⟩
        · exact ih _ hrec hp'

theorem get_outdated_mem_of_classify (paths : List String)
    (doc : DocumentTable) (fs : FS) (dg : String → String)
    (ms : List DocumentMetadata) (md : DocumentMetadata) (p : String)
    (h : get_outdated_paths paths doc fs dg = .ok ms) (hp : p ∈ paths)
    (hc : classifyPath doc fs dg p = .ok (some md)) : md ∈ ms := by
  induction paths generalizing ms with
  | nil => cases hp
  | cons p0 rest ih =>
    unfold get_outdated_paths at h
    cases hc0 : classifyPath doc fs dg p0 <;> rw [hc0] at h
    · cases h
    · rename_i md?
      cases hrec : get_outdated_paths rest doc fs dg <;> rw [hrec] at h
      · cases h
      · rename_i ms'
        cases h
        rcases List.mem_cons.mp hp with rfl | hp'
        · rw [hc] at hc0
          cases hc0
          exact List.mem_append.mpr (Or.inl (List.mem_singleton.mpr rfl))
        · exact List.mem_append.mpr (Or.inr (ih _ hrec hp'))

/-- After a run's document commit, every discovered path is CURRENT: its
stored mtime equals the filesystem's. -/
theorem second_classify_current (paths : List String) (doc : DocumentTable)
    (fs : FS) (dg : String → String) (ms : List DocumentMetadata)
    (h : get_outdated_paths paths doc fs dg = .ok ms) (p : String)
    (hp : p ∈ paths) :
    classifyPath (commitDocuments doc ms) fs dg p = .ok none := by
  obtain ⟨o, hc⟩ := get_outdated_classify_ok paths doc fs dg ms h p hp
  cases o with
  | none =>
    obtain ⟨r, hl, hs⟩ := classifyPath_none_inv doc fs dg p hc
    have hno : ∀ m ∈ ms, m.path ≠ p := by
      intro m hm heq
      have hcm := get_outdated_mem paths doc fs dg ms h m hm
      rw [heq, hc] at hcm
      cases hcm
    have hl' : lookupDoc (commitDocuments doc ms) p = some r := by
      rw [lookupDoc_commitDocuments_other doc ms p hno]
      exact hl
    exact classifyPath_current _ fs dg p r hl' hs
  | some md =>
    obtain ⟨hmp, hs, _⟩ := classifyPath_some_inv doc fs dg p md hc
    have hmem : md ∈ ms := get_outdated_mem_of_classify paths doc fs dg ms md p h hp hc
    have hall : ∀ m ∈ ms, m.path = p → m.digest = md.digest ∧ m.mtime = md.mtime := by
      intro m hm heq
      have hcm := get_outdated_mem paths doc fs dg ms h m hm
      rw [heq, hc] at hcm
      simp only [Except.ok.injEq, Option.some.injEq] at hcm
      rw [hcm]
      exact ⟨rfl, rfl⟩
    have hl' : lookupDoc (commitDocuments doc ms) p
        = some ⟨p, md.digest, md.mtime⟩ :=
      lookupDoc_commitDocuments_target doc ms p md.digest md.mtime
        ⟨md, hmem, hmp⟩ hall
    exact classifyPath_current _ fs dg p ⟨p, md.digest, md.mtime⟩ hl' hs

theorem get_outdated_nil_of_current (l : List String)
    (doc : DocumentTable) (fs : FS) (dg : String → String)
    (h : ∀ p ∈ l, classifyPath doc fs dg p = .ok none) :
    get_outdated_paths l doc fs dg = .ok [] := by
  induction l with
  | nil => rfl
  | cons p rest ih =>
    unfold get_outdated_paths
    rw [h p (List.mem_cons_self p rest),
      ih fun p' hp' => h p' (List.mem_cons_of_mem p hp')]
    rfl

/-! ### Lemmas about a whole run -/

theorem run_doc_of_outdated (paths : List String) (fs : FS)
    (doc : DocumentTable) (emb : EmbeddingTable) (dg : String → String)
    (embedFn : String → Vec) (embedOk : Bool) (q : Vec)
    (dist : Vec → Vec → Nat) (k : Nat) (ms : List DocumentMetadata)
    (hg : get_outdated_paths paths doc fs dg = .ok ms) :
    (run paths fs doc emb dg embedFn embedOk q dist k).doc
      = commitDocuments doc ms := by
  unfold run
  rw [hg]
  dsimp only
  split
  · rfl
  · split
    · split <;> rfl
    · rfl

theorem run_of_all_current (paths : List String) (fs : FS)
    (doc : DocumentTable) (emb : EmbeddingTable) (dg : String → String)
    (embedFn : String → Vec) (q : Vec) (dist : Vec → Vec → Nat) (k : Nat)
    (hg : get_outdated_paths paths doc fs dg = .ok []) :
    run paths fs doc emb dg embedFn true q dist k
      = ⟨doc, emb, [], .ok (scopedQuery doc emb paths q dist k)⟩ := by
  unfold run
  rw [hg]
  rfl

/-! ### Lemmas about the embedding-cache insert -/

theorem lookupEmb_append_single (tbl : EmbeddingTable) (x : EmbRow)
    (d : String) :
    lookupEmb (tbl ++ [x]) d =
      match lookupEmb tbl d with
      | some r => some r
      | none => if x.digest == d then some x else none := by
  unfold lookupEmb
  rw [List.find?_append]
  cases h : tbl.find? (·.digest == d)
  · cases hx : x.digest == d <;> simp [List.find?, Option.or, hx]
  · simp [Option.or]

/-! ### Claim theorems -/

/-- C1: the claim says that when the embedding capability fails on a batch of
N new contents, the metadata store holds zero new or updated FileRecords for
those paths and a later successful run re-attempts embedding for all N.  The
code commits the `document` batch before invoking the embedding capability,
so at the failing input (one new file `a.md`, capability fails) the failed
run leaves a FileRecord for `a.md` in place, and the subsequent successful
run submits zero documents to the capability (the path is CURRENT), never
re-attempting the lost embedding. -/
theorem c1_failed_embed_run_keeps_metadata_and_skips_retry :
    (run ["a.md"] fsOne [] [] id constEmbed false [0] constDist 4).doc
        = [⟨"a.md", "cats", 5⟩]
    ∧ (run ["a.md"] fsOne [] [] id constEmbed false [0] constDist 4).result
        = .error .embedFailure
    ∧ (run ["a.md"] fsOne
          (run ["a.md"] fsOne [] [] id constEmbed false [0] constDist 4).doc
          (run ["a.md"] fsOne [] [] id constEmbed false [0] constDist 4).emb
          id constEmbed true [0] constDist 4).docEmbedInputs = [] :=
  ⟨rfl, rfl, rfl⟩

/-- C2: the claim says two distinct paths with byte-identical content yield
exactly one EmbeddingEntry and exactly one embedding-capability invocation
for that content, in any order.  When both paths are indexed in the same run,
the needs-embedding filter checks each digest only against the table (not
against the batch being built), so the capability receives the same content
twice, and the batch insert then puts the same digest twice into a column
declared UNIQUE: the insert fails and the transaction rolls back, leaving
zero entries. -/
theorem c2_same_content_twice_in_one_run_double_embed :
    (run ["a.md", "b.md"] fsTwin [] [] id constEmbed true [0] constDist 4
        ).docEmbedInputs = ["cats", "cats"]
    ∧ (run ["a.md", "b.md"] fsTwin [] [] id constEmbed true [0] constDist 4
        ).result = .error .integrityError
    ∧ (run ["a.md", "b.md"] fsTwin [] [] id constEmbed true [0] constDist 4
        ).emb = [] :=
  ⟨rfl, rfl, rfl⟩

/-- C3 counterexample: committing a (fingerprint, vector) pair whose
fingerprint already has an entry is not a no-op: the plain `INSERT` violates
the UNIQUE digest constraint and the batch errors out. -/
theorem c3_counterexample_insert_existing_digest_errors :
    insertEmbeddings [⟨"d", [1]⟩] [("d", [2])] = .error .integrityError :=
  rfl

/-- C3 amended: the Embedding Cache commit is a plain batch insert rather
than insert-if-absent: a successful commit never rewrites an existing entry
(first write wins), and committing a fingerprint that already has an entry
aborts the whole batch with a uniqueness violation instead of being a
no-op. -/
theorem c3_commit_first_write_wins (tbl : EmbeddingTable)
    (pairs : List (String × Vec)) :
    (∀ tbl', insertEmbeddings tbl pairs = .ok tbl' →
      ∀ d r, lookupEmb tbl d = some r → lookupEmb tbl' d = some r)
    ∧ ∀ d v rest, (lookupEmb tbl d).isSome →
        insertEmbeddings tbl ((d, v) :: rest) = .error .integrityError := by
  constructor
  · intro tbl' h d r hd
    induction pairs generalizing tbl with
    | nil =>
      unfold insertEmbeddings at h
      cases h
      exact hd
    | cons pair rest ih =>
      unfold insertEmbeddings insertEmbRow at h
      cases hp : lookupEmb tbl pair.1 <;> rw [hp] at h
      · refine ih (tbl ++ [⟨pair.1, pair.2⟩]) h ?_
        rw [lookupEmb_append_single, hd]
      · cases h
  · intro d v rest his
    obtain ⟨r, hr⟩ := Option.isSome_iff_exists.mp his
    unfold insertEmbeddings insertEmbRow
    rw [hr]

/-- C3 witness: a concrete successful batch insert of a fresh fingerprint
preserves the entry already stored for `"d"`. -/
theorem c3_commit_first_write_wins_witness :
    lookupEmb [⟨"d", [1]⟩, ⟨"e", [2]⟩] "d" = some ⟨"d", [1]⟩ ∧
    insertEmbeddings [⟨"d", [1]⟩] [("d", [9]), ("e", [2])]
      = .error .integrityError := by
  constructor
  · exact (c3_commit_first_write_wins [⟨"d", [1]⟩] [("e", [2])]).1
      [⟨"d", [1]⟩, ⟨"e", [2]⟩] rfl "d" ⟨"d", [1]⟩ rfl
  · exact (c3_commit_first_write_wins [⟨"d", [1]⟩] []).2 "d" [9] [("e", [2])] rfl

/-- C4 counterexample: the claim says a per-path I/O error only skips that
path and the run continues for the others.  With one healthy file and one
whose stat fails, the run aborts with the I/O error and indexes nothing: the
healthy path gets no FileRecord and no result is produced. -/
theorem c4_counterexample_single_bad_path_fatal :
    (run ["good.md", "bad.md"] fsBadStat [] [] id constEmbed true [0]
        constDist 4).result = .error (.ioError "bad.md")
    ∧ (run ["good.md", "bad.md"] fsBadStat [] [] id constEmbed true [0]
        constDist 4).doc = [] :=
  ⟨rfl, rfl⟩

/-- C4 amended: an I/O or permission error while stat-ing or digesting any
path aborts the entire run before any store commit: both tables are left
exactly as they were, nothing is submitted to the embedding capability, and
the error propagates — a single bad file is fatal to the whole run rather
than a skipped item. -/
theorem c4_classification_error_aborts_run (paths : List String) (fs : FS)
    (doc : DocumentTable) (emb : EmbeddingTable) (dg : String → String)
    (embedFn : String → Vec) (embedOk : Bool) (q : Vec)
    (dist : Vec → Vec → Nat) (k : Nat) (e : RunError)
    (h : get_outdated_paths paths doc fs dg = .error e) :
    run paths fs doc emb dg embedFn embedOk q dist k
      = ⟨doc, emb, [], .error e⟩ := by
  unfold run
  rw [h]

/-- C4 witness: the amended behaviour evaluated on a concrete filesystem
whose only path fails to stat. -/
theorem c4_classification_error_aborts_run_witness :
    run ["bad.md"] fsBadStat [] [] id constEmbed true [0] constDist 4
      = ⟨[], [], [], .error (.ioError "bad.md")⟩ :=
  c4_classification_error_aborts_run ["bad.md"] fsBadStat [] [] id constEmbed
    true [0] constDist 4 (.ioError "bad.md") rfl

/-- C5: staleness classification.  (1) a path with a FileRecord whose stored
mtime equals the current one is classified CURRENT (no read is consulted);
(2) a CURRENT classification only arises from such a record; (3) a path with
no record is re-digested from its content; (4) a path whose mtime changed but
whose content digest is unchanged is re-digested, yet is dropped by the
needs-embedding filter when its fingerprint is already cached, so no new
embedding-capability work is triggered for it. -/
theorem c5_staleness_classification (doc : DocumentTable) (fs : FS)
    (dg : String → String) (emb : EmbeddingTable) (p : String) (t : Int)
    (c : String) (r : DocRow) :
    (lookupDoc doc p = some r → fsStat fs p = some r.mtime →
      classifyPath doc fs dg p = .ok none)
    ∧ (classifyPath doc fs dg p = .ok none →
        ∃ rr, lookupDoc doc p = some rr ∧ fsStat fs p = some rr.mtime)
    ∧ (lookupDoc doc p = none → fsStat fs p = some t → fsRead fs p = some c →
        classifyPath doc fs dg p = .ok (some ⟨p, dg c, t⟩))
    ∧ (lookupDoc doc p = some r → fsStat fs p = some t → t ≠ r.mtime →
        fsRead fs p = some c → dg c = r.digest →
        (lookupEmb emb r.digest).isSome →
        classifyPath doc fs dg p = .ok (some ⟨p, r.digest, t⟩)
          ∧ needsEmbedding emb [⟨p, r.digest, t⟩] = []) := by
  refine ⟨?_, classifyPath_none_inv doc fs dg p, ?_, ?_⟩
  · intro hl hs
    exact classifyPath_current doc fs dg p r hl hs
  · intro hl hs hread
    unfold classifyPath
    rw [hs]
    dsimp only
    rw [hl, hread]
    rfl
  · intro hl hs hne hread hdg his
    constructor
    · have hbeq : (t == r.mtime) = false := beq_false_of_ne hne
      unfold classifyPath
      rw [hs]
      dsimp only
      simp only [hl, hbeq, hread, hdg]
      rfl
    · obtain ⟨er, her⟩ := Option.isSome_iff_exists.mp his
      simp [needsEmbedding, her]

/-- C5 witness: the four classification behaviours evaluated on concrete
tables and filesystems (matching mtime; empty table; touched mtime with an
unchanged, already-cached digest). -/
theorem c5_staleness_classification_witness :
    classifyPath [⟨"a.md", "cats", 5⟩] fsOne id "a.md" = .ok none
    ∧ (∃ rr, lookupDoc [⟨"a.md", "cats", 5⟩] "a.md" = some rr
        ∧ fsStat fsOne "a.md" = some rr.mtime)
    ∧ classifyPath [] fsOne id "a.md" = .ok (some ⟨"a.md", "cats", 5⟩)
    ∧ (classifyPath [⟨"a.md", "cats", 5⟩] fsTouched id "a.md"
          = .ok (some ⟨"a.md", "cats", 9⟩)
        ∧ needsEmbedding [⟨"cats", [1]⟩] [⟨"a.md", "cats", 9⟩] = []) := by
  refine ⟨?_, ?_, ?_, ?_⟩
  · exact (c5_staleness_classification [⟨"a.md", "cats", 5⟩] fsOne id []
      "a.md" 5 "cats" ⟨"a.md", "cats", 5⟩).1 rfl rfl
  · exact (c5_staleness_classification [⟨"a.md", "cats", 5⟩] fsOne id []
      "a.md" 5 "cats" ⟨"a.md", "cats", 5⟩).2.1 rfl
  · exact (c5_staleness_classification [] fsOne id [] "a.md" 5 "cats"
      ⟨"a.md", "cats", 5⟩).2.2.1 rfl rfl rfl
  · exact (c5_staleness_classification [⟨"a.md", "cats", 5⟩] fsTouched id
      [⟨"cats", [1]⟩] "a.md" 9 "cats" ⟨"a.md", "cats", 5⟩).2.2.2
      rfl rfl (by decide) rfl rfl rfl

/-- C6: running the index update twice in a row against an unchanged
filesystem classifies every path CURRENT on the second run, which therefore
submits zero documents to the embedding capability. -/
theorem c6_second_run_embeds_nothing (paths : List String) (fs : FS)
    (doc : DocumentTable) (emb : EmbeddingTable) (dg : String → String)
    (embedFn : String → Vec) (q : Vec) (dist : Vec → Vec → Nat) (k : Nat)
    (res : List String)
    (h : (run paths fs doc emb dg embedFn true q dist k).result = .ok res) :
    get_outdated_paths paths
        (run paths fs doc emb dg embedFn true q dist k).doc fs dg = .ok []
    ∧ (run paths fs (run paths fs doc emb dg embedFn true q dist k).doc
        (run paths fs doc emb dg embedFn true q dist k).emb
        dg embedFn true q dist k).docEmbedInputs = [] := by
  cases hg : get_outdated_paths paths doc fs dg with
  | error e =>
    unfold run at h
    rw [hg] at h
    cases h
  | ok ms =>
    have hdoc := run_doc_of_outdated paths fs doc emb dg embedFn true q dist
      k ms hg
    have hnil : get_outdated_paths paths
        (run paths fs doc emb dg embedFn true q dist k).doc fs dg = .ok [] := by
      rw [hdoc]
      exact get_outdated_nil_of_current paths _ fs dg
        fun p hp => second_classify_current paths doc fs dg ms hg p hp
    refine ⟨hnil, ?_⟩
    rw [run_of_all_current paths fs _ _ dg embedFn q dist k hnil]

/-- C6 witness: a concrete successful run over one file followed by a second
run that classifies everything CURRENT and embeds nothing. -/
theorem c6_second_run_embeds_nothing_witness :
    get_outdated_paths ["a.md"]
        (run ["a.md"] fsOne [] [] id constEmbed true [0] constDist 4).doc
        fsOne id = .ok []
    ∧ (run ["a.md"] fsOne
        (run ["a.md"] fsOne [] [] id constEmbed true [0] constDist 4).doc
        (run ["a.md"] fsOne [] [] id constEmbed true [0] constDist 4).emb
        id constEmbed true [0] constDist 4).docEmbedInputs = [] :=
  c6_second_run_embeds_nothing ["a.md"] fsOne [] [] id constEmbed [0]
    constDist 4 ["a.md"] rfl

/-! ### Lemmas about the scoped query -/

theorem pairwise_trivial {α : Type} (r : α → α → Prop) (hr : ∀ a b, r a b)
    (l : List α) : l.Pairwise r := by
  induction l with
  | nil => constructor
  | cons x xs ih => exact List.pairwise_cons.mpr ⟨fun b _ => hr x b, ih⟩

theorem mem_insertPair (x a : String × Nat) (l : List (String × Nat)) :
    a ∈ insertPair x l ↔ a = x ∨ a ∈ l := by
  induction l with
  | nil => simp [insertPair]
  | cons y ys ih =>
    unfold insertPair
    split
    · simp only [List.mem_cons]
    · simp only [List.mem_cons, ih]
      tauto

theorem pairwise_insertPair (x : String × Nat) (l : List (String × Nat))
    (h : l.Pairwise fun a b => a.2 ≤ b.2) :
    (insertPair x l).Pairwise fun a b => a.2 ≤ b.2 := by
  induction l with
  | nil =>
    refine List.pairwise_cons.mpr ⟨?_, List.Pairwise.nil⟩
    intro b hb
    cases hb
  | cons y ys ih =>
    rcases List.pairwise_cons.mp h with ⟨hy, hys⟩
    unfold insertPair
    split
    · rename_i hxy
      refine List.pairwise_cons.mpr ⟨?_, h⟩
      intro b hb
      rcases List.mem_cons.mp hb with rfl | hb'
      · exact hxy
      · exact le_trans hxy (hy b hb')
    · rename_i hxy
      have hyx : y.2 ≤ x.2 := Nat.le_of_not_le hxy
      refine List.pairwise_cons.mpr ⟨?_, ih hys⟩
      intro b hb
      rcases (mem_insertPair x b ys).mp hb with rfl | hb'
      · exact hyx
      · exact hy b hb'

theorem pairwise_sortPairs (l : List (String × Nat)) :
    (sortPairs l).Pairwise fun a b => a.2 ≤ b.2 := by
  induction l with
  | nil => constructor
  | cons x xs ih => exact pairwise_insertPair x _ ih

theorem pairwise_knn (emb : EmbeddingTable) (dist : Vec → Vec → Nat)
    (q : Vec) (k : Nat) : (knn emb dist q k).Pairwise fun a b => a.2 ≤ b.2 :=
  (pairwise_sortPairs _).sublist (List.take_sublist _ _)

theorem mem_joinRows (doc : DocumentTable) (s : List String)
    (l : List (String × Nat)) (x : String × Nat)
    (hx : x ∈ joinRows doc s l) : x.1 ∈ s ∧ ∃ pr ∈ l, x.2 = pr.2 := by
  induction l with
  | nil => cases hx
  | cons hd tl ih =>
    obtain ⟨d, dst⟩ := hd
    unfold joinRows at hx
    rcases List.mem_append.mp hx with h1 | h2
    · obtain ⟨r, hr, rfl⟩ := List.mem_map.mp h1
      have hcond := (List.mem_filter.mp hr).2
      rw [Bool.and_eq_true] at hcond
      constructor
      · simpa using hcond.2
      · exact ⟨(d, dst), List.mem_cons_self _ tl, rfl⟩
    · obtain ⟨h1, pr, hpr, h2'⟩ := ih h2
      exact ⟨h1, pr, List.mem_cons_of_mem _ hpr, h2'⟩

theorem pairwise_joinRows (doc : DocumentTable) (s : List String)
    (l : List (String × Nat)) (h : l.Pairwise fun a b => a.2 ≤ b.2) :
    (joinRows doc s l).Pairwise fun a b => a.2 ≤ b.2 := by
  induction l with
  | nil => constructor
  | cons hd tl ih =>
    obtain ⟨d, dst⟩ := hd
    rcases List.pairwise_cons.mp h with ⟨hhd, htl⟩
    unfold joinRows
    refine List.pairwise_append.mpr ⟨?_, ih htl, ?_⟩
    · exact List.pairwise_map.mpr
        (pairwise_trivial _ (fun a b => le_refl dst) _)
    · intro a ha b hb
      obtain ⟨r, hr, rfl⟩ := List.mem_map.mp ha
      obtain ⟨_, pr, hpr, hb2⟩ := mem_joinRows doc s tl b hb
      rw [hb2]
      exact hhd pr hpr

/-- C7 counterexample: the claim says the search returns at most `k` paths.
With two candidate paths sharing one content fingerprint and `k = 1`, the
KNN limit applies to embedding rows, and the join then returns both paths:
two results for `k = 1`. -/
theorem c7_counterexample_more_than_k_paths :
    scopedQuery [⟨"a.md", "h", 1⟩, ⟨"b.md", "h", 2⟩] [⟨"h", [0]⟩]
        ["a.md", "b.md"] [0] constDist 1 = ["a.md", "b.md"]
    ∧ 1 < (scopedQuery [⟨"a.md", "h", 1⟩, ⟨"b.md", "h", 2⟩] [⟨"h", [0]⟩]
        ["a.md", "b.md"] [0] constDist 1).length :=
  ⟨rfl, by decide⟩

/-- C7 amended: the scoped query never returns a path outside the candidate
set and its rows are ordered ascending by distance, but `k` bounds the
embedding rows matched by the vector index (which ranks its whole table
before the join filters by candidate path), not the returned paths: a
fingerprint shared by several candidate paths yields one row per path, so
more than `k` paths can be returned. -/
theorem c7_scoped_query_properties (doc : DocumentTable)
    (emb : EmbeddingTable) (s : List String) (q : Vec)
    (dist : Vec → Vec → Nat) (k : Nat) :
    (∀ p ∈ scopedQuery doc emb s q dist k, p ∈ s)
    ∧ (queryRows doc emb s q dist k).Pairwise (fun a b => a.2 ≤ b.2)
    ∧ (knn emb dist q k).length ≤ k := by
  refine ⟨?_, pairwise_joinRows doc s _ (pairwise_knn emb dist q k), ?_⟩
  · intro p hp
    obtain ⟨x, hx, rfl⟩ := List.mem_map.mp hp
    exact (mem_joinRows doc s _ x hx).1
  · simp [knn, List.length_take]

/-- C7 witness: the amended properties evaluated at the shared-fingerprint
input. -/
theorem c7_scoped_query_properties_witness :
    "a.md" ∈ (["a.md", "b.md"] : List String)
    ∧ (queryRows [⟨"a.md", "h", 1⟩, ⟨"b.md", "h", 2⟩] [⟨"h", [0]⟩]
        ["a.md", "b.md"] [0] constDist 1).Pairwise (fun a b => a.2 ≤ b.2) := by
  constructor
  · exact (c7_scoped_query_properties [⟨"a.md", "h", 1⟩, ⟨"b.md", "h", 2⟩]
      [⟨"h", [0]⟩] ["a.md", "b.md"] [0] constDist 1).1 "a.md" (by decide)
  · exact (c7_scoped_query_properties [⟨"a.md", "h", 1⟩, ⟨"b.md", "h", 2⟩]
      [⟨"h", [0]⟩] ["a.md", "b.md"] [0] constDist 1).2.1

/-! ### Lemmas about what reaches the embedding capability -/

theorem readAll_mem_content (fs : FS) (ms : List DocumentMetadata)
    (cs : List String) (h : readAll fs ms = .ok cs) :
    ∀ c ∈ cs, ∃ e ∈ fs, c = e.content := by
  induction ms generalizing cs with
  | nil =>
    cases h
    intro c hc
    cases hc
  | cons m rest ih =>
    unfold readAll at h
    cases hr : fsRead fs m.path <;> rw [hr] at h
    · cases h
    · rename_i c0
      cases hrec : readAll fs rest <;> rw [hrec] at h
      · cases h
      · rename_i cs'
        cases h
        intro c hc
        rcases List.mem_cons.mp hc with rfl | hc'
        · unfold fsRead at hr
          cases hf : fs.find? (·.path == m.path) <;> rw [hf] at hr
          · cases hr
          · rename_i e
            dsimp only at hr
            refine ⟨e, List.mem_of_find?_eq_some hf, ?_⟩
            split at hr
            · injection hr with h'
              exact h'.symm
            · cases hr
        · exact ih _ hrec c hc'

theorem run_docEmbedInputs_from_fs (paths : List String) (fs : FS)
    (doc : DocumentTable) (emb : EmbeddingTable) (dg : String → String)
    (embedFn : String → Vec) (embedOk : Bool) (q : Vec)
    (dist : Vec → Vec → Nat) (k : Nat) :
    ∀ c ∈ (run paths fs doc emb dg embedFn embedOk q dist k).docEmbedInputs,
      ∃ e ∈ fs, c = e.content := by
  unfold run
  cases hg : get_outdated_paths paths doc fs dg
  · intro c hc
    cases hc
  · rename_i ms
    dsimp only
    cases hr : readAll fs (needsEmbedding emb ms)
    · intro c hc
      cases hc
    · rename_i docs
      dsimp only
      cases embedOk
      · rw [if_neg Bool.false_ne_true]
        exact readAll_mem_content fs _ docs hr
      · rw [if_pos rfl]
        cases hi : insertEmbeddings emb
            (((needsEmbedding emb ms).zip docs).map
              fun mc => (mc.1.digest, embedFn mc.2))
        · exact readAll_mem_content fs _ docs hr
        · exact readAll_mem_content fs _ docs hr

/-- C8: the query text is never embedded directly: the string handed to the
embedding capability for the query is the fixed marker `"query: "` prepended
to the stripped query text (and therefore differs from the stripped query
text itself), while every document string handed to the capability is a
file's content, with no marker prepended. -/
theorem c8_query_marker_prepended (q? : Option String) (s : String)
    (paths : List String) (fs : FS) (doc : DocumentTable)
    (emb : EmbeddingTable) (dg : String → String) (embedFn : String → Vec)
    (embedOk : Bool) (qv : Vec) (dist : Vec → Vec → Nat) (k : Nat) :
    queryText q? s = queryMarker ++ (rawQuery q? s).trim
    ∧ queryText q? s ≠ (rawQuery q? s).trim
    ∧ ∀ c ∈ (run paths fs doc emb dg embedFn embedOk qv dist k
        ).docEmbedInputs, ∃ e ∈ fs, c = e.content := by
  refine ⟨rfl, ?_,
    run_docEmbedInputs_from_fs paths fs doc emb dg embedFn embedOk qv dist k⟩
  intro h
  have hlen := congrArg String.length h
  have h7 : queryMarker.length = 7 := rfl
  rw [queryText, String.length_append, h7] at hlen
  omega

/-- C8 witness: a concrete query string is not embedded as-is (the marker
changes it), and the one document string submitted by a concrete run is the
file's raw content. -/
theorem c8_query_marker_prepended_witness :
    queryText (some "dogs") "" ≠ (rawQuery (some "dogs") "").trim
    ∧ ∃ e ∈ fsOne, "cats" = e.content := by
  constructor
  · exact (c8_query_marker_prepended (some "dogs") "" ["a.md"] fsOne [] []
      id constEmbed true [0] constDist 4).2.1
  · exact (c8_query_marker_prepended (some "dogs") "" ["a.md"] fsOne [] []
      id constEmbed true [0] constDist 4).2.2 "cats" (by decide)

/-- C9: a supplied input path that is neither an existing file nor an
existing directory makes file discovery fail fast with an invalid-path error
carrying such a path, rather than being skipped. -/
theorem c9_invalid_path_raises (paths exts : List String)
    (isFile isDir : String → Bool) (glob : String → String → List String)
    (p : String) (hp : p ∈ paths) (hf : isFile p = false)
    (hd : isDir p = false) :
    ∃ e, get_text_file_paths paths exts isFile isDir glob = .error e
      ∧ isFile e = false ∧ isDir e = false := by
  induction paths with
  | nil => cases hp
  | cons p0 rest ih =>
    cases hf0 : isFile p0
    · cases hd0 : isDir p0
      · refine ⟨p0, ?_, hf0, hd0⟩
        unfold get_text_file_paths
        rw [hf0, if_neg Bool.false_ne_true, hd0, if_neg Bool.false_ne_true]
      · have hp' : p ∈ rest := by
          rcases List.mem_cons.mp hp with rfl | h'
          · rw [hd0] at hd
            cases hd
          · exact h'
        obtain ⟨e, he, hfe, hde⟩ := ih hp'
        refine ⟨e, ?_, hfe, hde⟩
        unfold get_text_file_paths
        rw [hf0, if_neg Bool.false_ne_true, hd0, if_pos rfl, he]
    · have hp' : p ∈ rest := by
        rcases List.mem_cons.mp hp with rfl | h'
        · rw [hf0] at hf
          cases hf
        · exact h'
      obtain ⟨e, he, hfe, hde⟩ := ih hp'
      refine ⟨e, ?_, hfe, hde⟩
      unfold get_text_file_paths
      rw [hf0, if_pos rfl, he]

/-- C9 witness: discovery over one path that is neither file nor directory
fails with an invalid-path error. -/
theorem c9_invalid_path_raises_witness :
    ∃ e, get_text_file_paths ["x"] [".md"] (fun _ => false) (fun _ => false)
        (fun _ _ => []) = .error e
      ∧ (fun _ : String => false) e = false
      ∧ (fun _ : String => false) e = false :=
  c9_invalid_path_raises ["x"] [".md"] (fun _ => false) (fun _ => false)
    (fun _ _ => []) "x" (List.mem_singleton.mpr rfl) rfl rfl

/-- C10: an input path that is an existing regular file is included in the
discovered set whether or not its extension belongs to the configured set;
the extension globs are consulted only when expanding directories. -/
theorem c10_explicit_file_always_included (paths exts : List String)
    (isFile isDir : String → Bool) (glob : String → String → List String)
    (p : String) (res : List String)
    (h : get_text_file_paths paths exts isFile isDir glob = .ok res)
    (hp : p ∈ paths) (hf : isFile p = true) : p ∈ res := by
  induction paths generalizing res with
  | nil => cases hp
  | cons p0 rest ih =>
    unfold get_text_file_paths at h
    cases hf0 : isFile p0 <;> rw [hf0] at h
    · rw [if_neg Bool.false_ne_true] at h
      cases hd0 : isDir p0 <;> rw [hd0] at h
      · rw [if_neg Bool.false_ne_true] at h
        cases h
      · rw [if_pos rfl] at h
        cases hrec : get_text_file_paths rest exts isFile isDir glob <;>
          rw [hrec] at h
        · cases h
        · rename_i l
          cases h
          have hp' : p ∈ rest := by
            rcases List.mem_cons.mp hp with rfl | h'
            · rw [hf0] at hf
              cases hf
            · exact h'
          exact List.mem_append.mpr (Or.inr (ih _ hrec hp'))
    · rw [if_pos rfl] at h
      cases hrec : get_text_file_paths rest exts isFile isDir glob <;>
        rw [hrec] at h
      · cases h
      · rename_i l
        cases h
        rcases List.mem_cons.mp hp with rfl | hp'
        · exact List.mem_cons_self p l
        · exact List.mem_cons_of_mem p0 (ih _ hrec hp')

/-- C10 witness: a file argument whose extension is outside the configured
set is still discovered. -/
theorem c10_explicit_file_always_included_witness :
    "a.py" ∈ (["a.py"] : List String) :=
  c10_explicit_file_always_included ["a.py"] [".md"] (fun _ => true)
    (fun _ => false) (fun _ _ => []) "a.py" ["a.py"] rfl
    (List.mem_singleton.mpr rfl) rfl

end Mdq
